import Mathlib

/-!
Verification of the Deleted Files Manifest (DFM) deriver of
src/eden/mononoke/derived_data/deleted_files_manifest/derive.rs.

The embedding models manifest ids by the manifest content itself: the ids in
the source are content addresses, so equal ids correspond exactly to equal
node contents (invariant I4 of the spec).  Machine-level concerns (the blob
store wire format, hashing) are abstracted behind this identification.
Path elements and changeset ids are opaque and modelled as naturals.
-/

set_option maxHeartbeats 1000000

abbrev PathElem := Nat

abbrev CsId := Nat

/-- The PathChange enum of derive.rs (lines 70-75). -/
inductive PathChange where
  | Add
  | Remove
  | FileDirConflict
deriving DecidableEq, Repr

/-- PathTree of optional path changes: a trie keyed by path element.  The
subentry list plays the role of the ordered subentry map of the source. -/
inductive PathTree where
  | mk (value : Option PathChange) (subentries : List (PathElem × PathTree))
deriving Repr

/-- A deleted-files-manifest node: an optional linknode and an ordered map of
subentries.  Because ids are content addresses, subentries directly hold the
child nodes. -/
inductive Mf where
  | mk (linknode : Option CsId) (subentries : List (PathElem × Mf))
deriving Repr

mutual

def mfDecEq : (a b : Mf) → Decidable (a = b)
  | .mk l1 s1, .mk l2 s2 =>
    match decEq l1 l2, mfDecEqSubs s1 s2 with
    | isTrue h1, isTrue h2 => isTrue (by rw [h1, h2])
    | isFalse h1, _ => isFalse (by intro e; injection e with e1 e2; exact h1 e1)
    | _, isFalse h2 => isFalse (by intro e; injection e with e1 e2; exact h2 e2)

def mfDecEqSubs : (a b : List (PathElem × Mf)) → Decidable (a = b)
  | [], [] => isTrue rfl
  | [], _ :: _ => isFalse (by intro e; exact List.noConfusion e)
  | _ :: _, [] => isFalse (by intro e; exact List.noConfusion e)
  | (k1, m1) :: t1, (k2, m2) :: t2 =>
    match decEq k1 k2, mfDecEq m1 m2, mfDecEqSubs t1 t2 with
    | isTrue h1, isTrue h2, isTrue h3 => isTrue (by rw [h1, h2, h3])
    | isFalse h1, _, _ => isFalse (by
        intro e
        injection e with e1 e2
        injection e1 with f1 f2
        exact h1 f1)
    | _, isFalse h2, _ => isFalse (by
        intro e
        injection e with e1 e2
        injection e1 with f1 f2
        exact h2 f2)
    | _, _, isFalse h3 => isFalse (by
        intro e
        injection e with e1 e2
        exact h3 e2)

end

instance : DecidableEq Mf := mfDecEq

def PathTree.value : PathTree → Option PathChange
  | .mk v _ => v

def PathTree.subentries : PathTree → List (PathElem × PathTree)
  | .mk _ s => s

def Mf.linknode : Mf → Option CsId
  | .mk l _ => l

def Mf.subentries : Mf → List (PathElem × Mf)
  | .mk _ s => s

/-- Modelled from the spec: the Manifest Store Adapter operation
is_deleted, defined in mononoke_types (not under src/): a node is deleted
exactly when its linknode is present (spec I3). -/
def Mf.is_deleted (m : Mf) : Bool := m.linknode.isSome

/-- Modelled from the spec: the Manifest Store Adapter operation is_empty,
defined in mononoke_types (not under src/): a node is empty exactly when it
has no subentries (spec I3). -/
def Mf.is_empty (m : Mf) : Bool := m.subentries.isEmpty

/-- First-match association-list lookup, the model of ordered-map lookup. -/
def lookupA {α : Type} (k : PathElem) : List (PathElem × α) → Option α
  | [] => none
  | (q, v) :: t => if k = q then some v else lookupA k t

/-- Modelled from the spec: the Manifest Store Adapter operation lookup,
defined in mononoke_types (not under src/): find the subentry for one path
element. -/
def Mf.lookup (m : Mf) (k : PathElem) : Option Mf := lookupA k m.subentries

/-- Ordered insert-or-replace into an association list, the model of an
ordered-map insert. -/
def osInsert {α : Type} (k : PathElem) (v : α) : List (PathElem × α) → List (PathElem × α)
  | [] => [(k, v)]
  | (q, w) :: t =>
    if k < q then (k, v) :: (q, w) :: t
    else if k = q then (k, v) :: t
    else (q, w) :: osInsert k v t

/-- Removal of a key from an association list. -/
def osRemove {α : Type} (k : PathElem) (l : List (PathElem × α)) : List (PathElem × α) :=
  l.filter (fun kv => kv.1 != k)

/-- The subentries of an optional base manifest; an absent base contributes
no entries. -/
def baseSubsOf (b : Option Mf) : List (PathElem × Mf) :=
  match b with
  | some m => m.subentries
  | none => []

/-- One update applied to a subentry map: some inserts or replaces, none
removes (spec section 4.3). -/
def applyUpdate (acc : List (PathElem × Mf)) (ku : PathElem × Option Mf) :
    List (PathElem × Mf) :=
  match ku.2 with
  | some m => osInsert ku.1 m acc
  | none => osRemove ku.1 acc

/-- Modelled from the spec: the Manifest Store Adapter operation
copy_and_update_subentries, defined in mononoke_types (not under src/): a pure
function computing a node whose subentries equal the base subentries with the
updates applied (a none update removes an entry). -/
def copy_and_update_subentries (base : Option Mf) (linknode : Option CsId)
    (updates : List (PathElem × Option Mf)) : Mf :=
  Mf.mk linknode (updates.foldl applyUpdate (baseSubsOf base))

/-- Insertion into a set represented as a duplicate-free list; models HashSet
insert (derive.rs uses hash sets for parent ids and created keys). -/
def insertSet {α : Type} [DecidableEq α] (s : List α) (x : α) : List α :=
  if x ∈ s then s else s ++ [x]

/-- Models collecting a list into a HashSet (derive.rs line 121). -/
def dedupList {α : Type} [DecidableEq α] (l : List α) : List α :=
  l.foldl insertSet []

/-- DeletedManifestChangeType of derive.rs (lines 77-85). -/
inductive DeletedManifestChangeType where
  | CreateDeleted
  | RemoveIfNowEmpty
  | Reuse
deriving DecidableEq, Repr

/-- DeletedManifestChange of derive.rs (lines 87-93). -/
structure DeletedManifestChange where
  change_type : DeletedManifestChangeType
  copy_subentries_from : Option Mf
deriving DecidableEq, Repr

/-- DeletedManifestUnfoldNode of derive.rs (lines 95-100); the parents field
is a hash set, modelled as a duplicate-free list. -/
structure DeletedManifestUnfoldNode where
  path_element : Option PathElem
  changes : PathTree
  parents : List Mf
deriving Repr

/-- The check_consistency closure of do_unfold (derive.rs lines 244-255). -/
def check_consistency (manifests : List Mf) : Except String Bool :=
  match manifests with
  | [] => .ok false
  | m :: rest =>
    if rest.all (fun q => q.is_deleted == m.is_deleted) then .ok m.is_deleted
    else .error "parent deleted manifests have different node status, but no changes were provided"

/-- The base recurse_entries map built from the change subtree (derive.rs
lines 316-328): one child per key, with an empty parent set. -/
def mkRecurseBase (subs : List (PathElem × PathTree)) :
    List (PathElem × DeletedManifestUnfoldNode) :=
  subs.map (fun kt => (kt.1, ⟨some kt.1, kt.2, []⟩))

/-- Single-parent filling of child parent sets (derive.rs lines 335-348):
for each child key present in the parent, add the parent subentry id. -/
def singleParentFill (parent : Mf) (entries : List (PathElem × DeletedManifestUnfoldNode)) :
    List (PathElem × DeletedManifestUnfoldNode) :=
  entries.map (fun kn =>
    match parent.lookup kn.1 with
    | some sub => (kn.1, { kn.2 with parents := insertSet kn.2.parents sub })
    | none => kn)

/-- The default change tree for a synthetic merge child (derive.rs line 360). -/
def emptyPathTree : PathTree := .mk none []

/-- One step of the multi-parent merge (derive.rs lines 356-364): the map
entry for the key is fetched or defaulted, and the parent subentry id is
added to its parent set. -/
def insertParentEntry (acc : List (PathElem × DeletedManifestUnfoldNode)) (k : PathElem)
    (sub : Mf) : List (PathElem × DeletedManifestUnfoldNode) :=
  match lookupA k acc with
  | some n => osInsert k { n with parents := insertSet n.parents sub } acc
  | none => osInsert k (⟨some k, emptyPathTree, [sub]⟩ : DeletedManifestUnfoldNode) acc

/-- Multi-parent merge of all parent subentries into the child map
(derive.rs lines 350-373). -/
def mergeParentsFill (parents : List Mf) (entries : List (PathElem × DeletedManifestUnfoldNode)) :
    List (PathElem × DeletedManifestUnfoldNode) :=
  parents.foldl
    (fun acc p => p.subentries.foldl (fun acc2 kv => insertParentEntry acc2 kv.1 kv.2) acc)
    entries

/-- The shared tail of do_unfold (derive.rs lines 315-382): build the child
tasks and the fold node from the computed change type and the parent list. -/
def assembleFold (ct : DeletedManifestChangeType) (subs : List (PathElem × PathTree))
    (parents : List Mf) : DeletedManifestChange × List DeletedManifestUnfoldNode :=
  let base := mkRecurseBase subs
  match parents with
  | [] => (⟨ct, none⟩, base.map (fun kn => kn.2))
  | [parent] => (⟨ct, some parent⟩, (singleParentFill parent base).map (fun kn => kn.2))
  | ps => (⟨ct, none⟩, (mergeParentsFill ps base).map (fun kn => kn.2))

/-- DeletedManifestDeriver::do_unfold (derive.rs lines 224-383).  Loading a
manifest id from the blob store is the identity in this model, since ids are
content addresses identified with node contents. -/
def do_unfold (changes : PathTree) (parents : List Mf) :
    Except String (DeletedManifestChange × List DeletedManifestUnfoldNode) :=
  match changes with
  | .mk change subs =>
    match change, subs, parents with
    | none, [], [] => .ok (⟨.Reuse, none⟩, [])
    | none, [], [parent] => .ok (⟨.Reuse, some parent⟩, [])
    | none, [], ps =>
      match check_consistency ps with
      | .error e => .error e
      | .ok isDel =>
        .ok (assembleFold (if isDel then .CreateDeleted else .RemoveIfNowEmpty) [] ps)
    | none, s :: ss, ps => .ok (assembleFold .RemoveIfNowEmpty (s :: ss) ps)
    | some .Add, subs2, ps => .ok (assembleFold .RemoveIfNowEmpty subs2 ps)
    | some .Remove, subs2, ps => .ok (assembleFold .CreateDeleted subs2 ps)
    | some .FileDirConflict, subs2, ps => .ok (assembleFold .RemoveIfNowEmpty subs2 ps)

/-- The derivation-local mutable state: the mutex-protected set of created
blob keys and the sequence of writes submitted to the channel (derive.rs
lines 110-112).  A key is the content address, identified with the node. -/
structure DState where
  created : List Mf
  sent : List Mf
deriving DecidableEq, Repr

/-- DeletedManifestDeriver::save_manifest (derive.rs lines 385-406): insert
the key into the created set and submit the write only on first insertion. -/
def save_manifest (m : Mf) (st : DState) : Mf × DState :=
  if m ∈ st.created then (m, st)
  else (m, ⟨st.created ++ [m], st.sent ++ [m]⟩)

/-- DeletedManifestDeriver::do_create (derive.rs lines 408-455). -/
def do_create (cs_id : CsId) (change : DeletedManifestChange)
    (subentries_to_update : List (PathElem × Option Mf)) (st : DState) :
    Option Mf × DState :=
  match change.change_type with
  | .Reuse => (change.copy_subentries_from, st)
  | .CreateDeleted =>
    let m := copy_and_update_subentries change.copy_subentries_from (some cs_id)
      subentries_to_update
    let r := save_manifest m st
    (some r.1, r.2)
  | .RemoveIfNowEmpty =>
    let m := copy_and_update_subentries change.copy_subentries_from none subentries_to_update
    if m.is_empty then (none, st)
    else
      let r := save_manifest m st
      (some r.1, r.2)

/-- The subentry collection step of the fold closure (derive.rs lines
156-169): a child result without a path element is an invariant violation. -/
def buildSubs : List (Option PathElem × Option Mf) → List (PathElem × Option Mf) →
    Except String (List (PathElem × Option Mf))
  | [], acc => .ok acc
  | (none, _) :: _, _ =>
    .error "Failed to create deleted files manifest: subentry must have a path"
  | (some k, v) :: rest, acc => buildSubs rest (osInsert k v acc)

mutual

/-- One unfold-then-fold step of the bounded traversal (derive.rs lines
116-187), with a fuel bound standing in for the well-foundedness of the
walk; fuel is an artifact of the embedding and any sufficiently large value
gives the behaviour of the source traversal. -/
def deriveNodeF (cs : CsId) (fuel : Nat) (node : DeletedManifestUnfoldNode) (st : DState) :
    Except String ((Option PathElem × Option Mf) × DState) :=
  match fuel with
  | 0 => .error "out of fuel"
  | fuel' + 1 =>
    match do_unfold node.changes node.parents with
    | .error e => .error e
    | .ok (mfChange, children) =>
      match deriveChildrenF cs fuel' children st with
      | .error e => .error e
      | .ok (results, st2) =>
        match buildSubs results [] with
        | .error e => .error e
        | .ok upds =>
          let r := do_create cs mfChange upds st2
          .ok ((node.path_element, r.1), r.2)
termination_by structural fuel

/-- Sequential processing of the child tasks of one node, threading the
write state; also consumes one unit of fuel per list element. -/
def deriveChildrenF (cs : CsId) (fuel : Nat) (l : List DeletedManifestUnfoldNode) (st : DState) :
    Except String (List (Option PathElem × Option Mf) × DState) :=
  match fuel, l with
  | _, [] => .ok ([], st)
  | 0, _ :: _ => .error "out of fuel"
  | fuel' + 1, c :: rest =>
    match deriveNodeF cs fuel' c st with
    | .error e => .error e
    | .ok (r, st2) =>
      match deriveChildrenF cs fuel' rest st2 with
      | .error e => .error e
      | .ok (rs, st3) => .ok (r :: rs, st3)
termination_by structural fuel

end

mutual

def Mf.size : Mf → Nat
  | .mk _ s => 1 + Mf.sizeSubs s

def Mf.sizeSubs : List (PathElem × Mf) → Nat
  | [] => 0
  | (_, m) :: t => Mf.size m + Mf.sizeSubs t

end

mutual

def PathTree.size : PathTree → Nat
  | .mk _ s => 1 + PathTree.sizeSubs s

def PathTree.sizeSubs : List (PathElem × PathTree) → Nat
  | [] => 0
  | (_, t) :: rest => PathTree.size t + PathTree.sizeSubs rest

end

/-- Fuel bound for the traversal: a generous over-approximation of the
number of steps the walk can take, in terms of the structural size of the
inputs. -/
def deriveFuel (changes : PathTree) (parents : List Mf) : Nat :=
  2 * (changes.size + (parents.map Mf.size).sum) + 2

instance {ε α : Type} [DecidableEq ε] [DecidableEq α] : DecidableEq (Except ε α) := fun a b =>
  match a, b with
  | .ok x, .ok y =>
    if h : x = y then isTrue (by rw [h])
    else isFalse (by intro e; injection e with e1; exact h e1)
  | .error x, .error y =>
    if h : x = y then isTrue (by rw [h])
    else isFalse (by intro e; injection e with e1; exact h e1)
  | .ok _, .error _ => isFalse (by intro e; exact Except.noConfusion e)
  | .error _, .ok _ => isFalse (by intro e; exact Except.noConfusion e)

/-- DeletedManifestDeriver::derive (derive.rs lines 103-221): collect the
parents into a set, run the bounded traversal from the root, and if the root
fold produced no manifest create and persist the empty root. -/
def derive (cs : CsId) (parents : List Mf) (changes : PathTree) :
    Except String (Mf × DState) :=
  match deriveNodeF cs (deriveFuel changes (dedupList parents))
      ⟨none, changes, dedupList parents⟩ ⟨[], []⟩ with
  | .error e => .error e
  | .ok ((_, some mf), st) => .ok (mf, st)
  | .ok ((_, none), st) =>
    let mf := copy_and_update_subentries none none []
    let r := save_manifest mf st
    .ok (r.1, r.2)

/-! ### Association-list lemmas -/

theorem lookupA_osInsert {α : Type} (k q : PathElem) (v : α) (l : List (PathElem × α)) :
    lookupA k (osInsert q v l) = if k = q then some v else lookupA k l := by
  induction l with
  | nil => simp [osInsert, lookupA]
  | cons hd tl ih =>
    obtain ⟨p, w⟩ := hd
    simp only [osInsert]
    by_cases h1 : q < p
    · simp [if_pos h1, lookupA]
    · rw [if_neg h1]
      by_cases h2 : q = p
      · subst h2
        rw [if_pos rfl]
        by_cases h3 : k = q
        · subst h3; simp [lookupA]
        · simp [lookupA, h3]
      · rw [if_neg h2]
        by_cases h3 : k = p
        · subst h3
          have h4 : ¬ k = q := fun e => h2 e.symm
          simp [lookupA, h4]
        · simp [lookupA, h3, ih]

theorem lookupA_osRemove {α : Type} (k q : PathElem) (l : List (PathElem × α)) :
    lookupA k (osRemove q l) = if k = q then none else lookupA k l := by
  induction l with
  | nil => simp [osRemove, lookupA]
  | cons hd tl ih =>
    obtain ⟨p, w⟩ := hd
    by_cases h2 : p = q
    · subst h2
      have hdrop : osRemove p ((p, w) :: tl) = osRemove p tl := by
        simp [osRemove, List.filter_cons]
      rw [hdrop, ih]
      by_cases h3 : k = p
      · simp [h3]
      · simp [h3, lookupA]
    · have hkeep : osRemove q ((p, w) :: tl) = (p, w) :: osRemove q tl := by
        simp [osRemove, List.filter_cons, h2]
      rw [hkeep]
      by_cases h3 : k = p
      · subst h3
        have h4 : ¬ k = q := h2
        simp [lookupA, h4]
      · simp [lookupA, h3, ih]

theorem mem_osInsert {α : Type} {kv : PathElem × α} {q : PathElem} {v : α}
    {l : List (PathElem × α)} (h : kv ∈ osInsert q v l) : kv = (q, v) ∨ kv ∈ l := by
  induction l with
  | nil =>
    simp only [osInsert, List.mem_singleton] at h
    exact Or.inl h
  | cons hd tl ih =>
    obtain ⟨p, w⟩ := hd
    simp only [osInsert] at h
    by_cases h1 : q < p
    · rw [if_pos h1] at h
      simp only [List.mem_cons] at h
      rcases h with h | h | h
      · exact Or.inl h
      · exact Or.inr (by simp [List.mem_cons, h])
      · exact Or.inr (List.mem_cons_of_mem _ h)
    · rw [if_neg h1] at h
      by_cases h2 : q = p
      · rw [if_pos h2] at h
        simp only [List.mem_cons] at h
        rcases h with h | h
        · exact Or.inl h
        · exact Or.inr (List.mem_cons_of_mem _ h)
      · rw [if_neg h2] at h
        simp only [List.mem_cons] at h
        rcases h with h | h
        · exact Or.inr (by simp [List.mem_cons, h])
        · rcases ih h with h3 | h3
          · exact Or.inl h3
          · exact Or.inr (List.mem_cons_of_mem _ h3)

theorem mem_osRemove {α : Type} {kv : PathElem × α} {q : PathElem}
    {l : List (PathElem × α)} (h : kv ∈ osRemove q l) : kv ∈ l :=
  List.mem_of_mem_filter h

theorem lookupA_mem {α : Type} {k : PathElem} {l : List (PathElem × α)} {v : α}
    (h : lookupA k l = some v) : (k, v) ∈ l := by
  induction l with
  | nil => simp [lookupA] at h
  | cons hd tl ih =>
    obtain ⟨p, w⟩ := hd
    by_cases h3 : k = p
    · subst h3
      have h2 : w = v := by simpa [lookupA] using h
      subst h2
      exact List.mem_cons_self _ _
    · simp only [lookupA, if_neg h3] at h
      exact List.mem_cons_of_mem _ (ih h)

/-! ### Characterisation of copy_and_update_subentries -/

/-- The last update recorded for a key in an update list; later updates to
the same key overwrite earlier ones. -/
def lastUpdate (k : PathElem) : List (PathElem × Option Mf) → Option (Option Mf)
  | [] => none
  | (q, u) :: t =>
    match lastUpdate k t with
    | some r => some r
    | none => if k = q then some u else none

theorem foldl_applyUpdate_lookup (us : List (PathElem × Option Mf)) :
    ∀ (acc : List (PathElem × Mf)) (k : PathElem),
      lookupA k (us.foldl applyUpdate acc) =
        match lastUpdate k us with
        | some u => u
        | none => lookupA k acc := by
  induction us with
  | nil => intro acc k; simp [lastUpdate]
  | cons hd tl ih =>
    intro acc k
    obtain ⟨q, u⟩ := hd
    simp only [List.foldl_cons, lastUpdate]
    rw [ih]
    cases hlast : lastUpdate k tl with
    | some r => simp
    | none =>
      simp only []
      cases u with
      | some m =>
        simp only [applyUpdate, lookupA_osInsert]
        by_cases h3 : k = q
        · simp [h3]
        · simp [h3]
      | none =>
        simp only [applyUpdate, lookupA_osRemove]
        by_cases h3 : k = q
        · simp [h3]
        · simp [h3]

theorem mem_foldl_applyUpdate (us : List (PathElem × Option Mf)) :
    ∀ (acc : List (PathElem × Mf)) (kv : PathElem × Mf),
      kv ∈ us.foldl applyUpdate acc → kv ∈ acc ∨ ∃ q, (q, some kv.2) ∈ us := by
  induction us with
  | nil => intro acc kv h; exact Or.inl (by simpa using h)
  | cons hd tl ih =>
    intro acc kv h
    obtain ⟨q, u⟩ := hd
    simp only [List.foldl_cons] at h
    rcases ih _ _ h with h1 | h1
    · cases u with
      | some m =>
        rcases mem_osInsert (by simpa [applyUpdate] using h1) with h2 | h2
        · subst h2
          exact Or.inr ⟨q, by simp⟩
        · exact Or.inl h2
      | none =>
        exact Or.inl (mem_osRemove (by simpa [applyUpdate] using h1))
    · obtain ⟨p, hp⟩ := h1
      exact Or.inr ⟨p, by simp [hp]⟩

theorem copy_and_update_linknode (b : Option Mf) (lk : Option CsId)
    (us : List (PathElem × Option Mf)) :
    (copy_and_update_subentries b lk us).linknode = lk := rfl

theorem copy_and_update_lookup (b : Option Mf) (lk : Option CsId)
    (us : List (PathElem × Option Mf)) (k : PathElem) :
    lookupA k (copy_and_update_subentries b lk us).subentries =
      match lastUpdate k us with
      | some u => u
      | none => lookupA k (baseSubsOf b) := by
  simp only [copy_and_update_subentries, Mf.subentries]
  exact foldl_applyUpdate_lookup us (baseSubsOf b) k

theorem copy_and_update_mem {b : Option Mf} {lk : Option CsId}
    {us : List (PathElem × Option Mf)} {kv : PathElem × Mf}
    (h : kv ∈ (copy_and_update_subentries b lk us).subentries) :
    kv ∈ baseSubsOf b ∨ ∃ q, (q, some kv.2) ∈ us := by
  simp only [copy_and_update_subentries, Mf.subentries] at h
  exact mem_foldl_applyUpdate us (baseSubsOf b) kv h

/-! ### Set-insertion lemmas -/

theorem mem_insertSet {α : Type} [DecidableEq α] {x y : α} {s : List α}
    (h : x ∈ insertSet s y) : x ∈ s ∨ x = y := by
  unfold insertSet at h
  split at h
  · exact Or.inl h
  · rcases List.mem_append.mp h with h1 | h1
    · exact Or.inl h1
    · exact Or.inr (by simpa using h1)

theorem insertSet_of_mem {α : Type} [DecidableEq α] {x : α} {s : List α}
    (h : x ∈ s) (y : α) : x ∈ insertSet s y := by
  unfold insertSet
  split
  · exact h
  · exact List.mem_append.mpr (Or.inl h)

theorem mem_dedupList {α : Type} [DecidableEq α] {x : α} {l : List α}
    (h : x ∈ dedupList l) : x ∈ l := by
  have key : ∀ (l : List α) (acc : List α), x ∈ l.foldl insertSet acc → x ∈ acc ∨ x ∈ l := by
    intro l
    induction l with
    | nil => intro acc h1; exact Or.inl h1
    | cons hd tl ih =>
      intro acc h1
      rcases ih _ h1 with h2 | h2
      · rcases mem_insertSet h2 with h3 | h3
        · exact Or.inl h3
        · exact Or.inr (by simp [h3])
      · exact Or.inr (List.mem_cons_of_mem _ h2)
  rcases key l [] h with h1 | h1
  · simp at h1
  · exact h1

/-! ### Facts about do_unfold -/

theorem assembleFold_change_type (ct : DeletedManifestChangeType)
    (subs : List (PathElem × PathTree)) (ps : List Mf) :
    (assembleFold ct subs ps).1.change_type = ct := by
  match ps with
  | [] => rfl
  | [p] => rfl
  | p1 :: p2 :: rest => rfl

theorem assembleFold_copy_mem {ct : DeletedManifestChangeType}
    {subs : List (PathElem × PathTree)} {ps : List Mf} {b : Mf}
    (h : (assembleFold ct subs ps).1.copy_subentries_from = some b) : b ∈ ps := by
  match ps with
  | [] => simp [assembleFold] at h
  | [p] =>
    simp only [assembleFold] at h
    injection h with h1
    simp [h1]
  | p1 :: p2 :: rest => simp [assembleFold] at h

/-- Provenance of an id: it is one of the subentry values of one of the
given manifests. -/
def parentsProv (parents : List Mf) (q : Mf) : Prop :=
  ∃ p ∈ parents, ∃ k, (k, q) ∈ p.subentries

theorem mkRecurseBase_parents {subs : List (PathElem × PathTree)}
    {kn : PathElem × DeletedManifestUnfoldNode} (h : kn ∈ mkRecurseBase subs) :
    kn.2.parents = [] := by
  simp only [mkRecurseBase, List.mem_map] at h
  obtain ⟨kt, _, h2⟩ := h
  subst h2
  rfl

theorem singleParentFill_parents {parent : Mf}
    {entries : List (PathElem × DeletedManifestUnfoldNode)}
    {kn : PathElem × DeletedManifestUnfoldNode} (h : kn ∈ singleParentFill parent entries)
    {q : Mf} (hq : q ∈ kn.2.parents) :
    (∃ kn0 ∈ entries, q ∈ kn0.2.parents) ∨ ∃ k, (k, q) ∈ parent.subentries := by
  simp only [singleParentFill, List.mem_map] at h
  obtain ⟨kn0, h0, h2⟩ := h
  cases hl : parent.lookup kn0.1 with
  | some sub =>
    rw [hl] at h2
    subst h2
    simp only at hq
    rcases mem_insertSet hq with h3 | h3
    · exact Or.inl ⟨kn0, h0, h3⟩
    · subst h3
      exact Or.inr ⟨kn0.1, lookupA_mem hl⟩
  | none =>
    rw [hl] at h2
    subst h2
    exact Or.inl ⟨kn0, h0, hq⟩

theorem insertParentEntry_parents {acc : List (PathElem × DeletedManifestUnfoldNode)}
    {k : PathElem} {sub : Mf} {kn : PathElem × DeletedManifestUnfoldNode}
    (h : kn ∈ insertParentEntry acc k sub) {q : Mf} (hq : q ∈ kn.2.parents) :
    (∃ kn0 ∈ acc, q ∈ kn0.2.parents) ∨ q = sub := by
  unfold insertParentEntry at h
  cases hl : lookupA k acc with
  | some n =>
    rw [hl] at h
    rcases mem_osInsert h with h1 | h1
    · subst h1
      simp only at hq
      rcases mem_insertSet hq with h2 | h2
      · exact Or.inl ⟨(k, n), lookupA_mem hl, h2⟩
      · exact Or.inr h2
    · exact Or.inl ⟨kn, h1, hq⟩
  | none =>
    rw [hl] at h
    rcases mem_osInsert h with h1 | h1
    · subst h1
      simp only at hq
      rcases List.mem_singleton.mp hq with h2
      exact Or.inr h2
    · exact Or.inl ⟨kn, h1, hq⟩

/-- The per-entry provenance invariant carried through the merge folds. -/
def accProv (ps : List Mf) (acc : List (PathElem × DeletedManifestUnfoldNode)) : Prop :=
  ∀ kn ∈ acc, ∀ q ∈ kn.2.parents, parentsProv ps q

theorem foldl_insertParentEntry_prov {ps : List Mf} {p : Mf} (hp : p ∈ ps)
    (svs : List (PathElem × Mf)) (hsub : ∀ kv ∈ svs, kv ∈ p.subentries) :
    ∀ acc, accProv ps acc →
      accProv ps (svs.foldl (fun acc2 kv => insertParentEntry acc2 kv.1 kv.2) acc) := by
  induction svs with
  | nil => intro acc h; exact h
  | cons hd tl ih =>
    intro acc hacc
    simp only [List.foldl_cons]
    apply ih (fun kv hkv => hsub kv (List.mem_cons_of_mem _ hkv))
    intro kn hkn q hq
    rcases insertParentEntry_parents hkn hq with h1 | h1
    · obtain ⟨kn0, h2, h3⟩ := h1
      exact hacc kn0 h2 q h3
    · subst h1
      exact ⟨p, hp, hd.1, by
        have := hsub hd (List.mem_cons_self _ _)
        simpa using this⟩

theorem mergeParentsFill_prov {ps : List Mf} (l : List Mf) (hl : ∀ p ∈ l, p ∈ ps) :
    ∀ acc, accProv ps acc → accProv ps (mergeParentsFill l acc) := by
  induction l with
  | nil => intro acc h; exact h
  | cons hd tl ih =>
    intro acc hacc
    unfold mergeParentsFill
    simp only [List.foldl_cons]
    have step : accProv ps
        (hd.subentries.foldl (fun acc2 kv => insertParentEntry acc2 kv.1 kv.2) acc) :=
      foldl_insertParentEntry_prov (hl hd (List.mem_cons_self _ _)) hd.subentries
        (fun kv hkv => hkv) acc hacc
    have := ih (fun p hp => hl p (List.mem_cons_of_mem _ hp)) _ step
    simpa [mergeParentsFill] using this

theorem assembleFold_children_prov {ct : DeletedManifestChangeType}
    {subs : List (PathElem × PathTree)} {ps : List Mf}
    {c : DeletedManifestUnfoldNode} (hc : c ∈ (assembleFold ct subs ps).2)
    {q : Mf} (hq : q ∈ c.parents) : parentsProv ps q := by
  match ps with
  | [] =>
    simp only [assembleFold, List.mem_map] at hc
    obtain ⟨kn, h1, h2⟩ := hc
    subst h2
    rw [mkRecurseBase_parents h1] at hq
    simp at hq
  | [p] =>
    simp only [assembleFold, List.mem_map] at hc
    obtain ⟨kn, h1, h2⟩ := hc
    subst h2
    rcases singleParentFill_parents h1 hq with h3 | h3
    · obtain ⟨kn0, h4, h5⟩ := h3
      rw [mkRecurseBase_parents h4] at h5
      simp at h5
    · obtain ⟨k, h4⟩ := h3
      exact ⟨p, List.mem_singleton.mpr rfl, k, h4⟩
  | p1 :: p2 :: rest =>
    simp only [assembleFold, List.mem_map] at hc
    obtain ⟨kn, h1, h2⟩ := hc
    subst h2
    have base : accProv (p1 :: p2 :: rest) (mkRecurseBase subs) := by
      intro kn0 h3 q0 h4
      rw [mkRecurseBase_parents h3] at h4
      simp at h4
    exact mergeParentsFill_prov (p1 :: p2 :: rest) (fun p hp => hp) _ base kn h1 q hq

theorem do_unfold_shape {ch : PathTree} {ps : List Mf} {mfc : DeletedManifestChange}
    {children : List DeletedManifestUnfoldNode}
    (h : do_unfold ch ps = .ok (mfc, children)) :
    children = [] ∨ ∃ ct subs, assembleFold ct subs ps = (mfc, children) := by
  obtain ⟨v, subs⟩ := ch
  cases v with
  | none =>
    cases subs with
    | nil =>
      match ps with
      | [] =>
        simp only [do_unfold] at h
        injection h with h1
        exact Or.inl (congrArg Prod.snd h1).symm
      | [p] =>
        simp only [do_unfold] at h
        injection h with h1
        exact Or.inl (congrArg Prod.snd h1).symm
      | p1 :: p2 :: rest =>
        simp only [do_unfold] at h
        cases hcc : check_consistency (p1 :: p2 :: rest) with
        | error e => rw [hcc] at h; cases h
        | ok isDel =>
          rw [hcc] at h
          injection h with h1
          exact Or.inr ⟨_, [], h1⟩
    | cons s ss =>
      simp only [do_unfold] at h
      injection h with h1
      exact Or.inr ⟨.RemoveIfNowEmpty, s :: ss, h1⟩
  | some pc =>
    cases pc with
    | Add =>
      simp only [do_unfold] at h
      injection h with h1
      exact Or.inr ⟨.RemoveIfNowEmpty, subs, h1⟩
    | Remove =>
      simp only [do_unfold] at h
      injection h with h1
      exact Or.inr ⟨.CreateDeleted, subs, h1⟩
    | FileDirConflict =>
      simp only [do_unfold] at h
      injection h with h1
      exact Or.inr ⟨.RemoveIfNowEmpty, subs, h1⟩

theorem do_unfold_children_prov {ch : PathTree} {ps : List Mf}
    {mfc : DeletedManifestChange} {children : List DeletedManifestUnfoldNode}
    (h : do_unfold ch ps = .ok (mfc, children)) :
    ∀ c ∈ children, ∀ q ∈ c.parents, parentsProv ps q := by
  rcases do_unfold_shape h with h1 | h1
  · subst h1
    intro c hc
    simp at hc
  · obtain ⟨ct, subs, h1⟩ := h1
    intro c hc q hq
    have hc2 : c ∈ (assembleFold ct subs ps).2 := by rw [h1]; exact hc
    exact assembleFold_children_prov hc2 hq

theorem do_unfold_copy_mem {ch : PathTree} {ps : List Mf}
    {mfc : DeletedManifestChange} {children : List DeletedManifestUnfoldNode} {b : Mf}
    (h : do_unfold ch ps = .ok (mfc, children))
    (hb : mfc.copy_subentries_from = some b) : b ∈ ps := by
  obtain ⟨v, subs⟩ := ch
  cases v with
  | none =>
    cases subs with
    | nil =>
      match ps with
      | [] =>
        simp only [do_unfold] at h
        injection h with h1
        have h2 : mfc = ⟨.Reuse, none⟩ := (congrArg Prod.fst h1).symm
        rw [h2] at hb
        simp at hb
      | [p] =>
        simp only [do_unfold] at h
        injection h with h1
        have h2 : mfc = ⟨.Reuse, some p⟩ := (congrArg Prod.fst h1).symm
        rw [h2] at hb
        injection hb with h3
        simp [h3]
      | p1 :: p2 :: rest =>
        simp only [do_unfold] at h
        cases hcc : check_consistency (p1 :: p2 :: rest) with
        | error e => rw [hcc] at h; cases h
        | ok isDel =>
          rw [hcc] at h
          injection h with h1
          exact assembleFold_copy_mem (by rw [h1]; exact hb)
    | cons s ss =>
      simp only [do_unfold] at h
      injection h with h1
      exact assembleFold_copy_mem (by rw [h1]; exact hb)
  | some pc =>
    cases pc with
    | Add =>
      simp only [do_unfold] at h
      injection h with h1
      exact assembleFold_copy_mem (by rw [h1]; exact hb)
    | Remove =>
      simp only [do_unfold] at h
      injection h with h1
      exact assembleFold_copy_mem (by rw [h1]; exact hb)
    | FileDirConflict =>
      simp only [do_unfold] at h
      injection h with h1
      exact assembleFold_copy_mem (by rw [h1]; exact hb)

/-! ### Node invariants -/

/-- Spec invariant I1: no node has simultaneously no linknode and no
subentries. -/
def I1 (m : Mf) : Prop := m.linknode ≠ none ∨ m.subentries ≠ []

/-- All strict descendants of the node satisfy I1 (the node itself is
unconstrained, matching the root exception of the spec). -/
inductive GoodSubs : Mf → Prop where
  | mk (v : Option CsId) (subs : List (PathElem × Mf))
      (hI : ∀ kc ∈ subs, I1 kc.2)
      (hG : ∀ kc ∈ subs, GoodSubs kc.2) : GoodSubs (.mk v subs)

theorem GoodSubs.mem {m : Mf} (h : GoodSubs m) {kc : PathElem × Mf}
    (hkc : kc ∈ m.subentries) : I1 kc.2 ∧ GoodSubs kc.2 := by
  cases h with
  | mk v subs hI hG => exact ⟨hI kc hkc, hG kc hkc⟩

theorem GoodSubs_of_forall {m : Mf} (h : ∀ kc ∈ m.subentries, I1 kc.2 ∧ GoodSubs kc.2) :
    GoodSubs m := by
  cases m with
  | mk v s =>
    exact GoodSubs.mk v s (fun kc hkc => (h kc hkc).1) (fun kc hkc => (h kc hkc).2)

/-- Reachability along subentry edges. -/
inductive Reach : Mf → Mf → Prop where
  | refl (m : Mf) : Reach m m
  | step {m c n : Mf} {k : PathElem} (hk : (k, c) ∈ m.subentries) (h : Reach c n) :
      Reach m n

theorem reach_good {m n : Mf} (h : Reach m n) :
    GoodSubs m → n = m ∨ (I1 n ∧ GoodSubs n) := by
  induction h with
  | refl m => intro _; exact Or.inl rfl
  | step hk hr ih =>
    intro hg
    obtain ⟨hI, hG⟩ := hg.mem hk
    rcases ih hG with h1 | h1
    · subst h1; exact Or.inr ⟨hI, hG⟩
    · exact Or.inr h1

/-! ### State invariants of the write pipeline -/

/-- Derivation-state invariant: each key is sent at most once, sent keys are
recorded as created, and only nodes satisfying I1 are created during the
traversal. -/
def DStateInv (st : DState) : Prop :=
  st.sent.Nodup ∧ (∀ m ∈ st.sent, m ∈ st.created) ∧ ∀ m ∈ st.created, I1 m

theorem save_manifest_fst (m : Mf) (st : DState) : (save_manifest m st).1 = m := by
  unfold save_manifest
  split <;> rfl

theorem save_manifest_not_created {m : Mf} {st : DState} (h : m ∉ st.created) :
    save_manifest m st = (m, ⟨st.created ++ [m], st.sent ++ [m]⟩) := by
  unfold save_manifest
  rw [if_neg h]

theorem save_manifest_inv {m : Mf} {st : DState} (hI : I1 m) (h : DStateInv st) :
    DStateInv (save_manifest m st).2 := by
  obtain ⟨h1, h2, h3⟩ := h
  unfold save_manifest
  split
  · exact ⟨h1, h2, h3⟩
  · rename_i hmem
    refine ⟨?_, ?_, ?_⟩
    · simp only [List.nodup_append, List.nodup_cons, List.nodup_nil]
      exact ⟨h1, by simp, by
        intro x hx hx2
        simp only [List.mem_singleton] at hx2
        subst hx2
        exact hmem (h2 x hx)⟩
    · intro x hx
      rcases List.mem_append.mp hx with hx1 | hx1
      · exact List.mem_append.mpr (Or.inl (h2 x hx1))
      · exact List.mem_append.mpr (Or.inr hx1)
    · intro x hx
      rcases List.mem_append.mp hx with hx1 | hx1
      · exact h3 x hx1
      · simp only [List.mem_singleton] at hx1
        subst hx1
        exact hI

theorem do_create_inv {cs : CsId} {chg : DeletedManifestChange}
    {upds : List (PathElem × Option Mf)} {st : DState} (h : DStateInv st) :
    DStateInv (do_create cs chg upds st).2 := by
  unfold do_create
  cases hct : chg.change_type with
  | Reuse => exact h
  | CreateDeleted =>
    apply save_manifest_inv _ h
    exact Or.inl (by rw [copy_and_update_linknode]; simp)
  | RemoveIfNowEmpty =>
    by_cases he :
        (copy_and_update_subentries chg.copy_subentries_from none upds).is_empty = true
    · simp only [he, if_true]
      exact h
    · simp only [he, if_false]
      apply save_manifest_inv _ h
      refine Or.inr ?_
      intro hnil
      apply he
      simp [Mf.is_empty, hnil]

theorem deriveF_inv (cs : CsId) : ∀ fuel : Nat,
    (∀ node st r st', deriveNodeF cs fuel node st = .ok (r, st') →
      DStateInv st → DStateInv st') ∧
    (∀ l st rs st', deriveChildrenF cs fuel l st = .ok (rs, st') →
      DStateInv st → DStateInv st') := by
  intro fuel
  induction fuel with
  | zero =>
    constructor
    · intro node st r st' h
      simp [deriveNodeF] at h
    · intro l st rs st' h hinv
      cases l with
      | nil =>
        simp only [deriveChildrenF] at h
        injection h with h1
        have h2 : st = st' := congrArg Prod.snd h1
        exact h2 ▸ hinv
      | cons c rest => simp [deriveChildrenF] at h
  | succ fuel ih =>
    constructor
    · intro node st r st' h hinv
      simp only [deriveNodeF] at h
      cases hu : do_unfold node.changes node.parents with
      | error e => rw [hu] at h; cases h
      | ok pr =>
        rw [hu] at h
        obtain ⟨mfc, children⟩ := pr
        simp only at h
        cases hc : deriveChildrenF cs fuel children st with
        | error e => rw [hc] at h; cases h
        | ok pr2 =>
          rw [hc] at h
          obtain ⟨results, st2⟩ := pr2
          simp only at h
          cases hb : buildSubs results [] with
          | error e => rw [hb] at h; cases h
          | ok upds =>
            rw [hb] at h
            simp only at h
            injection h with h1
            have hst2 : DStateInv st2 := ih.2 children st results st2 hc hinv
            have h2 : (do_create cs mfc upds st2).2 = st' := congrArg Prod.snd h1
            exact h2 ▸ do_create_inv hst2
    · intro l st rs st' h hinv
      cases l with
      | nil =>
        simp only [deriveChildrenF] at h
        injection h with h1
        have h2 : st = st' := congrArg Prod.snd h1
        exact h2 ▸ hinv
      | cons c rest =>
        simp only [deriveChildrenF] at h
        cases hn : deriveNodeF cs fuel c st with
        | error e => rw [hn] at h; cases h
        | ok pr =>
          rw [hn] at h
          obtain ⟨r0, st2⟩ := pr
          simp only at h
          cases hrest : deriveChildrenF cs fuel rest st2 with
          | error e => rw [hrest] at h; cases h
          | ok pr2 =>
            rw [hrest] at h
            obtain ⟨rs0, st3⟩ := pr2
            simp only at h
            injection h with h1
            have hst2 : DStateInv st2 := ih.1 c st r0 st2 hn hinv
            have hst3 : DStateInv st3 := ih.2 rest st2 rs0 st3 hrest hst2
            have h2 : st3 = st' := congrArg Prod.snd h1
            exact h2 ▸ hst3

/-! ### The fold step preserves I1 below every constructed node -/

theorem buildSubs_mem : ∀ (rs : List (Option PathElem × Option Mf))
    (acc us : List (PathElem × Option Mf)),
    buildSubs rs acc = .ok us →
    ∀ ku ∈ us, ku ∈ acc ∨ (some ku.1, ku.2) ∈ rs := by
  intro rs
  induction rs with
  | nil =>
    intro acc us h ku hku
    simp only [buildSubs] at h
    injection h with h1
    subst h1
    exact Or.inl hku
  | cons hd tl ih =>
    intro acc us h ku hku
    obtain ⟨pe, v⟩ := hd
    cases pe with
    | none => simp [buildSubs] at h
    | some k =>
      simp only [buildSubs] at h
      rcases ih _ _ h ku hku with h1 | h1
      · rcases mem_osInsert h1 with h2 | h2
        · subst h2
          exact Or.inr (by simp)
        · exact Or.inl h2
      · exact Or.inr (List.mem_cons_of_mem _ h1)

theorem copy_good {base : Option Mf} {lk : Option CsId}
    {upds : List (PathElem × Option Mf)}
    (hbase : ∀ b, base = some b → GoodSubs b)
    (hupds : ∀ ku ∈ upds, ∀ m0, ku.2 = some m0 → GoodSubs m0 ∧ I1 m0) :
    GoodSubs (copy_and_update_subentries base lk upds) := by
  apply GoodSubs_of_forall
  intro kc hkc
  rcases copy_and_update_mem hkc with h1 | h1
  · cases hb : base with
    | none =>
      rw [hb] at h1
      simp [baseSubsOf] at h1
    | some b =>
      rw [hb] at h1
      have hg := hbase b hb
      exact hg.mem (by simpa [baseSubsOf] using h1)
  · obtain ⟨q, hq⟩ := h1
    have h2 := hupds (q, some kc.2) hq kc.2 rfl
    exact ⟨h2.2, h2.1⟩

theorem deriveF_good (cs : CsId) : ∀ fuel : Nat,
    (∀ node st pe res st', deriveNodeF cs fuel node st = .ok ((pe, res), st') →
      (∀ p ∈ node.parents, GoodSubs p) →
      ∀ m, res = some m → GoodSubs m ∧ ((∀ p ∈ node.parents, I1 p) → I1 m)) ∧
    (∀ l st rs st', deriveChildrenF cs fuel l st = .ok (rs, st') →
      (∀ c ∈ l, ∀ p ∈ c.parents, GoodSubs p ∧ I1 p) →
      ∀ r ∈ rs, ∀ m, r.2 = some m → GoodSubs m ∧ I1 m) := by
  intro fuel
  induction fuel with
  | zero =>
    constructor
    · intro node st pe res st' h
      simp [deriveNodeF] at h
    · intro l st rs st' h hl r hr m hm
      cases l with
      | nil =>
        simp only [deriveChildrenF] at h
        injection h with h1
        have h2 : [] = rs := congrArg Prod.fst h1
        rw [← h2] at hr
        simp at hr
      | cons c rest => simp [deriveChildrenF] at h
  | succ fuel ih =>
    constructor
    · intro node st pe res st' h hpar m hm
      subst hm
      simp only [deriveNodeF] at h
      cases hu : do_unfold node.changes node.parents with
      | error e => rw [hu] at h; cases h
      | ok pr =>
        rw [hu] at h
        obtain ⟨mfc, children⟩ := pr
        simp only at h
        cases hc : deriveChildrenF cs fuel children st with
        | error e => rw [hc] at h; cases h
        | ok pr2 =>
          rw [hc] at h
          obtain ⟨results, st2⟩ := pr2
          simp only at h
          cases hb : buildSubs results [] with
          | error e => rw [hb] at h; cases h
          | ok upds =>
            rw [hb] at h
            simp only at h
            injection h with h1
            have hres : (do_create cs mfc upds st2).1 = some m := by
              have h2 := congrArg Prod.fst h1
              exact congrArg Prod.snd h2
            have hkids : ∀ r ∈ results, ∀ m0, r.2 = some m0 → GoodSubs m0 ∧ I1 m0 := by
              apply ih.2 children st results st2 hc
              intro c hcmem p hp
              obtain ⟨pp, hpp, k, hk⟩ := do_unfold_children_prov hu c hcmem p hp
              have h3 := (hpar pp hpp).mem hk
              exact ⟨h3.2, h3.1⟩
            have hupds : ∀ ku ∈ upds, ∀ m0, ku.2 = some m0 → GoodSubs m0 ∧ I1 m0 := by
              intro ku hku m0 hm0
              rcases buildSubs_mem results [] upds hb ku hku with h2 | h2
              · simp at h2
              · exact hkids (some ku.1, ku.2) h2 m0 hm0
            have hbase : ∀ b, mfc.copy_subentries_from = some b →
                GoodSubs b ∧ ((∀ p ∈ node.parents, I1 p) → I1 b) := by
              intro b hb2
              have hbm := do_unfold_copy_mem hu hb2
              exact ⟨hpar b hbm, fun hs => hs b hbm⟩
            unfold do_create at hres
            cases hct : mfc.change_type with
            | Reuse =>
              rw [hct] at hres
              simp only at hres
              exact hbase m hres
            | CreateDeleted =>
              rw [hct] at hres
              simp only at hres
              rw [save_manifest_fst] at hres
              injection hres with hres2
              subst hres2
              refine ⟨copy_good (fun b hb3 => (hbase b hb3).1) hupds, fun _ => ?_⟩
              exact Or.inl (by rw [copy_and_update_linknode]; simp)
            | RemoveIfNowEmpty =>
              rw [hct] at hres
              simp only at hres
              by_cases he : (copy_and_update_subentries mfc.copy_subentries_from none
                  upds).is_empty = true
              · rw [if_pos he] at hres
                simp at hres
              · rw [if_neg he] at hres
                simp only at hres
                rw [save_manifest_fst] at hres
                injection hres with hres2
                subst hres2
                refine ⟨copy_good (fun b hb3 => (hbase b hb3).1) hupds, fun _ => ?_⟩
                refine Or.inr ?_
                intro hnil
                exact he (by simp [Mf.is_empty, hnil])
    · intro l st rs st' h hl r hr m hm
      cases l with
      | nil =>
        simp only [deriveChildrenF] at h
        injection h with h1
        have h2 : [] = rs := congrArg Prod.fst h1
        rw [← h2] at hr
        simp at hr
      | cons c rest =>
        simp only [deriveChildrenF] at h
        cases hn : deriveNodeF cs fuel c st with
        | error e => rw [hn] at h; cases h
        | ok pr =>
          rw [hn] at h
          obtain ⟨r0, st2⟩ := pr
          simp only at h
          cases hrest : deriveChildrenF cs fuel rest st2 with
          | error e => rw [hrest] at h; cases h
          | ok pr2 =>
            rw [hrest] at h
            obtain ⟨rs0, st3⟩ := pr2
            simp only at h
            injection h with h1
            have h2 : r0 :: rs0 = rs := congrArg Prod.fst h1
            rw [← h2] at hr
            rcases List.mem_cons.mp hr with h3 | h3
            · subst h3
              have h4 := ih.1 c st r.1 r.2 st2 hn
                (fun p hp => (hl c (List.mem_cons_self _ _) p hp).1) m hm
              exact ⟨h4.1, h4.2 (fun p hp => (hl c (List.mem_cons_self _ _) p hp).2)⟩
            · exact ih.2 rest st2 rs0 st3 hrest
                (fun c0 hc0 => hl c0 (List.mem_cons_of_mem _ hc0)) r h3 m hm

/-! ### The ChangeTree Builder flattening (diff_against_parents) -/

/-- The Diff items of the manifest crate consumed by diff_against_parents
(derive.rs lines 528-532); entry payloads are opaque and paths are opaque
keys here.  A none path denotes the manifest root. -/
inductive UnodeDiff where
  | Added (path : Option Nat) (entry : Nat)
  | Removed (path : Option Nat) (entry : Nat)
  | Changed (path : Option Nat) (entryFrom : Nat) (entryTo : Nat)
deriving DecidableEq, Repr

/-- The filter_map of derive.rs lines 528-532: keep added and removed
entries with a non-root path, drop content modifications. -/
def toPathChange : UnodeDiff → Option (Nat × PathChange)
  | .Added (some p) _ => some (p, .Add)
  | .Removed (some p) _ => some (p, .Remove)
  | .Added none _ => none
  | .Removed none _ => none
  | .Changed _ _ _ => none

/-- One step of the conflict-resolving fold (derive.rs lines 535-548): a
clash of two different tags for one path becomes FileDirConflict. -/
def addChangeEntry (m : List (Nat × PathChange)) (pc : Nat × PathChange) :
    List (Nat × PathChange) :=
  match lookupA pc.1 m with
  | some e => osInsert pc.1 (if e ≠ pc.2 then .FileDirConflict else e) m
  | none => osInsert pc.1 pc.2 m

/-- diff_against_parents (derive.rs lines 509-551) after the blob fetches:
flatten the per-parent diffs, drop modifications, and fold into a
path-keyed map. -/
def diff_against_parents (parent_diffs : List (List UnodeDiff)) :
    List (Nat × PathChange) :=
  ((parent_diffs.flatten).filterMap toPathChange).foldl addChangeEntry []

/-- The state transition of one occurrence of a path in the flattened
diff list. -/
def occState (e : Option PathChange) (c : PathChange) : Option PathChange :=
  match e with
  | none => some c
  | some e0 => some (if e0 ≠ c then .FileDirConflict else e0)

/-- The tags recorded for one path across a flattened diff list. -/
def occsOf (p : Nat) (l : List (Nat × PathChange)) : List PathChange :=
  l.filterMap (fun q => if q.1 = p then some q.2 else none)

theorem addChangeEntry_lookup (m : List (Nat × PathChange)) (pc : Nat × PathChange)
    (q : Nat) :
    lookupA q (addChangeEntry m pc) =
      if q = pc.1 then occState (lookupA q m) pc.2 else lookupA q m := by
  unfold addChangeEntry
  cases hl : lookupA pc.1 m with
  | some e =>
    rw [lookupA_osInsert]
    by_cases hq : q = pc.1
    · subst hq
      rw [hl]
      simp [occState]
    · simp [hq]
  | none =>
    rw [lookupA_osInsert]
    by_cases hq : q = pc.1
    · subst hq
      rw [hl]
      simp [occState]
    · simp [hq]

theorem foldl_addChangeEntry (l : List (Nat × PathChange)) :
    ∀ (acc : List (Nat × PathChange)) (q : Nat),
      lookupA q (l.foldl addChangeEntry acc) =
        (occsOf q l).foldl occState (lookupA q acc) := by
  induction l with
  | nil => intro acc q; simp [occsOf]
  | cons hd tl ih =>
    intro acc q
    obtain ⟨p, c⟩ := hd
    simp only [List.foldl_cons]
    rw [ih]
    by_cases hq : q = p
    · subst hq
      have hocc : occsOf q ((q, c) :: tl) = c :: occsOf q tl := by
        simp [occsOf, List.filterMap_cons]
      rw [hocc, List.foldl_cons, addChangeEntry_lookup]
      simp
    · have hocc : occsOf q ((p, c) :: tl) = occsOf q tl := by
        have hq2 : ¬ p = q := fun e => hq e.symm
        simp [occsOf, List.filterMap_cons, hq2]
      rw [hocc, addChangeEntry_lookup]
      simp [hq]

theorem foldl_occState_fdc (l : List PathChange) :
    l.foldl occState (some .FileDirConflict) = some .FileDirConflict := by
  induction l with
  | nil => rfl
  | cons hd tl ih =>
    have hstep : occState (some PathChange.FileDirConflict) hd =
        some PathChange.FileDirConflict := by
      cases hd <;> simp [occState]
    rw [List.foldl_cons, hstep, ih]

theorem foldl_occState_same (t : PathChange) (l : List PathChange)
    (h : ∀ c ∈ l, c = t) : l.foldl occState (some t) = some t := by
  induction l with
  | nil => rfl
  | cons hd tl ih =>
    have hhd : hd = t := h hd (List.mem_cons_self _ _)
    subst hhd
    have hstep : occState (some hd) hd = some hd := by simp [occState]
    rw [List.foldl_cons, hstep]
    exact ih (fun c hc => h c (List.mem_cons_of_mem _ hc))

theorem foldl_occState_mixed (t : PathChange) (l : List PathChange)
    (h : ∃ c ∈ l, c ≠ t) : l.foldl occState (some t) = some .FileDirConflict := by
  induction l with
  | nil => obtain ⟨c, hc, _⟩ := h; simp at hc
  | cons hd tl ih =>
    by_cases hhd : hd = t
    · subst hhd
      have hstep : occState (some hd) hd = some hd := by simp [occState]
      rw [List.foldl_cons, hstep]
      apply ih
      obtain ⟨c, hc, hct⟩ := h
      rcases List.mem_cons.mp hc with h1 | h1
      · subst h1; exact absurd rfl hct
      · exact ⟨c, h1, hct⟩
    · have hstep : occState (some t) hd = some .FileDirConflict := by
        have : t ≠ hd := fun e => hhd e.symm
        simp [occState, this]
      rw [List.foldl_cons, hstep, foldl_occState_fdc]

theorem toPathChange_val {d : UnodeDiff} {p : Nat} {c : PathChange}
    (h : toPathChange d = some (p, c)) : c = .Add ∨ c = .Remove := by
  cases d with
  | Added path entry =>
    cases path with
    | none => simp [toPathChange] at h
    | some q =>
      simp only [toPathChange] at h
      injection h with h1
      exact Or.inl (congrArg Prod.snd h1).symm
  | Removed path entry =>
    cases path with
    | none => simp [toPathChange] at h
    | some q =>
      simp only [toPathChange] at h
      injection h with h1
      exact Or.inr (congrArg Prod.snd h1).symm
  | Changed path e1 e2 => simp [toPathChange] at h

theorem occsOf_no_fdc (p : Nat) (pds : List (List UnodeDiff)) :
    ∀ c ∈ occsOf p ((pds.flatten).filterMap toPathChange), c = .Add ∨ c = .Remove := by
  intro c hc
  simp only [occsOf, List.mem_filterMap] at hc
  obtain ⟨q, hq, hq2⟩ := hc
  by_cases h1 : q.1 = p
  · rw [if_pos h1] at hq2
    injection hq2 with h2
    subst h2
    obtain ⟨d, _, hd2⟩ := hq
    exact toPathChange_val (by rw [hd2])
  · rw [if_neg h1] at hq2
    cases hq2

/-! ### The content-addressed store and write replay -/

/-- The content-addressed blob store after a sequence of writes: a put of an
already stored content-addressed key leaves the store unchanged. -/
def applyWrites (store : List Mf) (writes : List Mf) : List Mf :=
  writes.foldl insertSet store

theorem mem_applyWrites_left {x : Mf} (l : List Mf) :
    ∀ s, x ∈ s → x ∈ applyWrites s l := by
  induction l with
  | nil => intro s h; exact h
  | cons hd tl ih =>
    intro s h
    exact ih (insertSet s hd) (insertSet_of_mem h hd)

theorem mem_applyWrites_right {x : Mf} (l : List Mf) :
    ∀ s, x ∈ l → x ∈ applyWrites s l := by
  induction l with
  | nil => intro s h; simp at h
  | cons hd tl ih =>
    intro s h
    rcases List.mem_cons.mp h with h1 | h1
    · subst h1
      apply mem_applyWrites_left tl
      unfold insertSet
      split
      · assumption
      · simp
    · exact ih _ h1

theorem applyWrites_subset_noop (l : List Mf) :
    ∀ s, (∀ x ∈ l, x ∈ s) → applyWrites s l = s := by
  induction l with
  | nil => intro s _; rfl
  | cons hd tl ih =>
    intro s h
    have h1 : insertSet s hd = s := by
      unfold insertSet
      rw [if_pos (h hd (List.mem_cons_self _ _))]
    show applyWrites (insertSet s hd) tl = s
    rw [h1]
    exact ih s (fun x hx => h x (List.mem_cons_of_mem _ hx))

theorem applyWrites_idem (s l : List Mf) :
    applyWrites (applyWrites s l) l = applyWrites s l :=
  applyWrites_subset_noop l _ (fun _x hx => mem_applyWrites_right l s hx)

theorem insertSet_nil {α : Type} [DecidableEq α] (x : α) : insertSet [] x = [x] := by
  simp [insertSet]

theorem dedupList_replicate (p : Mf) (n : Nat) :
    dedupList (List.replicate (n + 1) p) = [p] := by
  have key : ∀ m, List.foldl insertSet [p] (List.replicate m p) = [p] := by
    intro m
    induction m with
    | zero => rfl
    | succ m ih =>
      rw [List.replicate_succ, List.foldl_cons]
      have h1 : insertSet [p] p = [p] := by
        unfold insertSet
        rw [if_pos (List.mem_singleton.mpr rfl)]
      rw [h1]
      exact ih
  unfold dedupList
  rw [List.replicate_succ, List.foldl_cons, insertSet_nil]
  exact key n

/-! ### Error characterisation of the unfold step -/

theorem check_consistency_error_iff (ms : List Mf) :
    (∃ e, check_consistency ms = .error e) ↔
      ∃ p1 ∈ ms, ∃ p2 ∈ ms, p1.is_deleted ≠ p2.is_deleted := by
  cases ms with
  | nil =>
    simp only [check_consistency]
    constructor
    · intro ⟨e, he⟩; cases he
    · intro ⟨p1, hp1, _⟩; simp at hp1
  | cons m rest =>
    have hred : check_consistency (m :: rest) =
        if (rest.all fun q => q.is_deleted == m.is_deleted) = true then
          Except.ok m.is_deleted
        else Except.error
          "parent deleted manifests have different node status, but no changes were provided" :=
      rfl
    rw [hred]
    by_cases hall : (rest.all fun q => q.is_deleted == m.is_deleted) = true
    · rw [if_pos hall]
      constructor
      · intro ⟨e, he⟩; cases he
      · intro ⟨p1, hp1, p2, hp2, hne⟩
        exfalso
        apply hne
        rw [List.all_eq_true] at hall
        have hv : ∀ q ∈ m :: rest, q.is_deleted = m.is_deleted := by
          intro q hq
          rcases List.mem_cons.mp hq with h1 | h1
          · rw [h1]
          · exact eq_of_beq (hall q h1)
        rw [hv p1 hp1, hv p2 hp2]
    · rw [if_neg hall]
      constructor
      · intro _
        rw [List.all_eq_true] at hall
        push_neg at hall
        obtain ⟨q, hq, hne⟩ := hall
        refine ⟨q, List.mem_cons_of_mem _ hq, m, List.mem_cons_self _ _, ?_⟩
        intro he
        exact hne (by rw [he]; exact beq_self_eq_true _)
      · intro _
        exact ⟨_, rfl⟩

theorem do_unfold_error_iff (ch : PathTree) (ps : List Mf) :
    (∃ e, do_unfold ch ps = .error e) ↔
      (ch.value = none ∧ ch.subentries = [] ∧
        ∃ p1 ∈ ps, ∃ p2 ∈ ps, p1.is_deleted ≠ p2.is_deleted) := by
  obtain ⟨v, subs⟩ := ch
  cases v with
  | some pc =>
    have hok : ∃ r, do_unfold (PathTree.mk (some pc) subs) ps = .ok r := by
      cases pc <;> exact ⟨_, rfl⟩
    constructor
    · intro ⟨e, he⟩
      obtain ⟨r, hr⟩ := hok
      rw [hr] at he
      cases he
    · intro ⟨h1, _⟩
      simp [PathTree.value] at h1
  | none =>
    cases subs with
    | cons s ss =>
      constructor
      · intro ⟨e, he⟩
        simp only [do_unfold] at he
        cases he
      · intro ⟨_, h2, _⟩
        simp [PathTree.subentries] at h2
    | nil =>
      match ps with
      | [] =>
        constructor
        · intro ⟨e, he⟩
          simp only [do_unfold] at he
          cases he
        · intro ⟨_, _, p1, hp1, _⟩
          simp at hp1
      | [p] =>
        constructor
        · intro ⟨e, he⟩
          simp only [do_unfold] at he
          cases he
        · intro ⟨_, _, p1, hp1, p2, hp2, hne⟩
          rw [List.mem_singleton] at hp1 hp2
          subst hp1; subst hp2
          exact absurd rfl hne
      | p1 :: p2 :: rest =>
        constructor
        · intro ⟨e, he⟩
          simp only [do_unfold] at he
          cases hcc : check_consistency (p1 :: p2 :: rest) with
          | error e2 =>
            refine ⟨rfl, rfl, ?_⟩
            exact (check_consistency_error_iff _).mp ⟨e2, hcc⟩
          | ok isDel =>
            rw [hcc] at he
            cases he
        · intro ⟨_, _, hdis⟩
          obtain ⟨e, he⟩ := (check_consistency_error_iff (p1 :: p2 :: rest)).mpr hdis
          refine ⟨e, ?_⟩
          simp only [do_unfold]
          rw [he]

/-! ### Derive-level corollaries -/

theorem GoodSubs_empty : GoodSubs (Mf.mk none []) :=
  GoodSubs.mk none [] (by simp) (by simp)

theorem save_manifest_winv {m : Mf} {st : DState} (h1 : st.sent.Nodup)
    (h2 : ∀ x ∈ st.sent, x ∈ st.created) :
    (save_manifest m st).2.sent.Nodup ∧
      ∀ x ∈ (save_manifest m st).2.sent, x ∈ (save_manifest m st).2.created := by
  unfold save_manifest
  split
  · exact ⟨h1, h2⟩
  · rename_i hmem
    constructor
    · simp only [List.nodup_append, List.nodup_cons, List.nodup_nil]
      exact ⟨h1, by simp, by
        intro x hx hx2
        simp only [List.mem_singleton] at hx2
        subst hx2
        exact hmem (h2 x hx)⟩
    · intro x hx
      rcases List.mem_append.mp hx with hx1 | hx1
      · exact List.mem_append.mpr (Or.inl (h2 x hx1))
      · exact List.mem_append.mpr (Or.inr hx1)

theorem derive_good {cs : CsId} {ps : List Mf} {ch : PathTree} {mf : Mf} {st : DState}
    (hp : ∀ p ∈ ps, GoodSubs p) (h : derive cs ps ch = .ok (mf, st)) : GoodSubs mf := by
  unfold derive at h
  cases hres : deriveNodeF cs (deriveFuel ch (dedupList ps))
      ⟨none, ch, dedupList ps⟩ ⟨[], []⟩ with
  | error e => rw [hres] at h; cases h
  | ok pr =>
    rw [hres] at h
    obtain ⟨⟨pe, res⟩, st1⟩ := pr
    cases res with
    | some m =>
      simp only at h
      injection h with h1
      have hm : m = mf := congrArg Prod.fst h1
      subst hm
      have hpar : ∀ p ∈ dedupList ps, GoodSubs p := fun p hp2 => hp p (mem_dedupList hp2)
      exact ((deriveF_good cs _).1 ⟨none, ch, dedupList ps⟩ ⟨[], []⟩ pe (some m) st1 hres
        hpar m rfl).1
    | none =>
      simp only at h
      injection h with h1
      have hm : (save_manifest (copy_and_update_subentries none none []) st1).1 = mf :=
        congrArg Prod.fst h1
      rw [save_manifest_fst] at hm
      rw [← hm]
      exact GoodSubs_empty

theorem derive_nodup {cs : CsId} {ps : List Mf} {ch : PathTree} {mf : Mf} {st : DState}
    (h : derive cs ps ch = .ok (mf, st)) : st.sent.Nodup := by
  unfold derive at h
  cases hres : deriveNodeF cs (deriveFuel ch (dedupList ps))
      ⟨none, ch, dedupList ps⟩ ⟨[], []⟩ with
  | error e => rw [hres] at h; cases h
  | ok pr =>
    rw [hres] at h
    obtain ⟨⟨pe, res⟩, st1⟩ := pr
    have hinv : DStateInv st1 :=
      (deriveF_inv cs _).1 _ _ _ _ hres ⟨List.nodup_nil, by simp, by simp⟩
    cases res with
    | some m =>
      simp only at h
      injection h with h1
      have hst : st1 = st := congrArg Prod.snd h1
      rw [← hst]
      exact hinv.1
    | none =>
      simp only at h
      injection h with h1
      have hst : (save_manifest (copy_and_update_subentries none none []) st1).2 = st :=
        congrArg Prod.snd h1
      rw [← hst]
      exact (save_manifest_winv hinv.1 hinv.2.1).1

theorem check_consistency_error_msg {ms : List Mf} {e : String}
    (h : check_consistency ms = .error e) :
    e = "parent deleted manifests have different node status, but no changes were provided" := by
  cases ms with
  | nil => exact Except.noConfusion h
  | cons m rest =>
    have hred : check_consistency (m :: rest) =
        if (rest.all fun q => q.is_deleted == m.is_deleted) = true then
          Except.ok m.is_deleted
        else Except.error
          "parent deleted manifests have different node status, but no changes were provided" :=
      rfl
    rw [hred] at h
    by_cases hall : (rest.all fun q => q.is_deleted == m.is_deleted) = true
    · rw [if_pos hall] at h
      exact Except.noConfusion h
    · rw [if_neg hall] at h
      injection h with h1
      exact h1.symm

theorem do_unfold_error_msg {ch : PathTree} {ps : List Mf} {e : String}
    (h : do_unfold ch ps = .error e) :
    e = "parent deleted manifests have different node status, but no changes were provided" := by
  obtain ⟨v, subs⟩ := ch
  cases v with
  | some pc => cases pc <;> exact Except.noConfusion h
  | none =>
    cases subs with
    | cons s ss => exact Except.noConfusion h
    | nil =>
      match ps with
      | [] => exact Except.noConfusion h
      | [p] => exact Except.noConfusion h
      | p1 :: p2 :: rest =>
        simp only [do_unfold] at h
        cases hcc : check_consistency (p1 :: p2 :: rest) with
        | error e2 =>
          rw [hcc] at h
          injection h with h1
          rw [← h1]
          exact check_consistency_error_msg hcc
        | ok isDel =>
          rw [hcc] at h
          exact Except.noConfusion h

/-! ### Claim theorems -/

/-- Claim C1: for every node visited by the unfold step of the deriver, the
change-classification is dictated by the local change value: a local Add
yields RemoveIfNowEmpty, a local Remove yields CreateDeleted, a local
FileDirConflict yields RemoveIfNowEmpty, and a None change with a non-empty
change subtree yields RemoveIfNowEmpty, regardless of the number of
parents. -/
theorem claim_C1_unfold_classification (ch : PathTree) (ps : List Mf)
    (mfc : DeletedManifestChange) (children : List DeletedManifestUnfoldNode)
    (h : do_unfold ch ps = .ok (mfc, children)) :
    (ch.value = some .Add → mfc.change_type = .RemoveIfNowEmpty) ∧
    (ch.value = some .Remove → mfc.change_type = .CreateDeleted) ∧
    (ch.value = some .FileDirConflict → mfc.change_type = .RemoveIfNowEmpty) ∧
    (ch.value = none → ch.subentries ≠ [] → mfc.change_type = .RemoveIfNowEmpty) := by
  obtain ⟨v, subs⟩ := ch
  cases v with
  | none =>
    cases subs with
    | nil =>
      refine ⟨?_, ?_, ?_, ?_⟩
      · intro h1; simp [PathTree.value] at h1
      · intro h1; simp [PathTree.value] at h1
      · intro h1; simp [PathTree.value] at h1
      · intro _ h2; simp [PathTree.subentries] at h2
    | cons s ss =>
      simp only [do_unfold] at h
      injection h with h1
      have hm : mfc = (assembleFold .RemoveIfNowEmpty (s :: ss) ps).1 :=
        (congrArg Prod.fst h1).symm
      refine ⟨?_, ?_, ?_, ?_⟩
      · intro h2; simp [PathTree.value] at h2
      · intro h2; simp [PathTree.value] at h2
      · intro h2; simp [PathTree.value] at h2
      · intro _ _; rw [hm, assembleFold_change_type]
  | some pc =>
    cases pc with
    | Add =>
      simp only [do_unfold] at h
      injection h with h1
      have hm : mfc = (assembleFold .RemoveIfNowEmpty subs ps).1 :=
        (congrArg Prod.fst h1).symm
      refine ⟨?_, ?_, ?_, ?_⟩
      · intro _; rw [hm, assembleFold_change_type]
      · intro h2; simp [PathTree.value] at h2
      · intro h2; simp [PathTree.value] at h2
      · intro h2; simp [PathTree.value] at h2
    | Remove =>
      simp only [do_unfold] at h
      injection h with h1
      have hm : mfc = (assembleFold .CreateDeleted subs ps).1 :=
        (congrArg Prod.fst h1).symm
      refine ⟨?_, ?_, ?_, ?_⟩
      · intro h2; simp [PathTree.value] at h2
      · intro _; rw [hm, assembleFold_change_type]
      · intro h2; simp [PathTree.value] at h2
      · intro h2; simp [PathTree.value] at h2
    | FileDirConflict =>
      simp only [do_unfold] at h
      injection h with h1
      have hm : mfc = (assembleFold .RemoveIfNowEmpty subs ps).1 :=
        (congrArg Prod.fst h1).symm
      refine ⟨?_, ?_, ?_, ?_⟩
      · intro h2; simp [PathTree.value] at h2
      · intro h2; simp [PathTree.value] at h2
      · intro _; rw [hm, assembleFold_change_type]
      · intro h2; simp [PathTree.value] at h2

theorem claim_C1_witness :
    (PathTree.mk (some PathChange.Add) []).value = some PathChange.Add ∧
    ((⟨.RemoveIfNowEmpty, none⟩ : DeletedManifestChange)).change_type =
      .RemoveIfNowEmpty :=
  ⟨rfl,
    (claim_C1_unfold_classification (.mk (some .Add) []) [] ⟨.RemoveIfNowEmpty, none⟩ []
      rfl).1 rfl⟩

/-- Claim C3: the unfold step fails exactly when the node has no local
change value, no change subtree, and two parent manifests that disagree on
is_deleted; every error it raises is the parent-inconsistency message, and
in every other configuration the unfold step succeeds. -/
theorem claim_C3_parent_inconsistency (ch : PathTree) (ps : List Mf) :
    ((∃ e, do_unfold ch ps = .error e) ↔
      (ch.value = none ∧ ch.subentries = [] ∧
        ∃ p1 ∈ ps, ∃ p2 ∈ ps, p1.is_deleted ≠ p2.is_deleted)) ∧
    ∀ e, do_unfold ch ps = .error e →
      e = "parent deleted manifests have different node status, but no changes were provided" :=
  ⟨do_unfold_error_iff ch ps, fun _ he => do_unfold_error_msg he⟩

/-- Claim C5: a fold with classification RemoveIfNowEmpty constructs the
node with no linknode and with the base subentries updated by the child
results (a some inserts or replaces, a none removes); an empty result is
dropped and writes nothing, a non-empty result is persisted and its id
returned. -/
theorem claim_C5_remove_if_now_empty (cs : CsId) (base : Option Mf)
    (upds : List (PathElem × Option Mf)) (st : DState) :
    (do_create cs ⟨.RemoveIfNowEmpty, base⟩ upds st =
      if (copy_and_update_subentries base none upds).is_empty then (none, st)
      else (some (copy_and_update_subentries base none upds),
        (save_manifest (copy_and_update_subentries base none upds) st).2)) ∧
    (copy_and_update_subentries base none upds).linknode = none ∧
    ∀ k, lookupA k (copy_and_update_subentries base none upds).subentries =
      match lastUpdate k upds with
      | some u => u
      | none => lookupA k (baseSubsOf base) := by
  refine ⟨?_, copy_and_update_linknode base none upds, copy_and_update_lookup base none upds⟩
  unfold do_create
  simp only
  by_cases he : (copy_and_update_subentries base none upds).is_empty = true
  · rw [if_pos he, if_pos he]
  · rw [if_neg he, if_neg he, save_manifest_fst]

/-- Claim C6: a subtree with no change-tree entry and a single parent
manifest is reused: the step allocates no blob, leaves the write state
untouched, and returns the parent manifest id up the tree. -/
theorem claim_C6_reuse (cs : CsId) (fuel : Nat) (pe : Option PathElem) (p : Mf)
    (st : DState) :
    deriveNodeF cs (fuel + 1) ⟨pe, PathTree.mk none [], [p]⟩ st = .ok ((pe, some p), st) := by
  simp [deriveNodeF, do_unfold, deriveChildrenF, buildSubs, do_create]

/-- Claim C10: the derivation depends on the parents only through the set of
distinct parent manifest ids: a call with n + 1 copies of one parent root
behaves exactly like the single-parent call. -/
theorem claim_C10_parent_dedup (cs : CsId) (p : Mf) (n : Nat) (ch : PathTree) :
    derive cs (List.replicate (n + 1) p) ch = derive cs [p] ch := by
  unfold derive
  rw [dedupList_replicate]
  have h1 : dedupList [p] = [p] := by
    unfold dedupList
    rw [List.foldl_cons, insertSet_nil]
    rfl
  rw [h1]

/-- Claim C2: for every root returned by derive (whose parents satisfy the
structure invariant below their roots), every node reachable from the root
with no linknode has non-empty subentries; the only reachable node that may
have both no linknode and empty subentries is the root itself. -/
theorem claim_C2_no_bare_live_nodes (cs : CsId) (ps : List Mf) (ch : PathTree)
    (mf : Mf) (st : DState) (hp : ∀ p ∈ ps, GoodSubs p)
    (h : derive cs ps ch = .ok (mf, st)) :
    ∀ n, Reach mf n → n.linknode = none → n.subentries = [] → n = mf := by
  have hg := derive_good hp h
  intro n hr hl hs
  rcases reach_good hr hg with h1 | h1
  · exact h1
  · exfalso
    rcases h1.1 with h2 | h2
    · exact h2 hl
    · exact h2 hs

theorem claim_C2_witness :
    (∀ p ∈ ([] : List Mf), GoodSubs p) ∧
    derive 0 [] (PathTree.mk none [(1, PathTree.mk (some PathChange.Remove) [])]) =
      .ok (Mf.mk none [(1, Mf.mk (some 0) [])],
        ⟨[Mf.mk (some 0) [], Mf.mk none [(1, Mf.mk (some 0) [])]],
         [Mf.mk (some 0) [], Mf.mk none [(1, Mf.mk (some 0) [])]]⟩) ∧
    (Reach (Mf.mk none [(1, Mf.mk (some 0) [])]) (Mf.mk (some 0) []) →
      (Mf.mk (some 0) []).linknode = none → (Mf.mk (some 0) []).subentries = [] →
      Mf.mk (some 0) [] = Mf.mk none [(1, Mf.mk (some 0) [])]) := by
  refine ⟨by simp, by decide, ?_⟩
  exact claim_C2_no_bare_live_nodes 0 []
    (PathTree.mk none [(1, PathTree.mk (some PathChange.Remove) [])])
    (Mf.mk none [(1, Mf.mk (some 0) [])])
    ⟨[Mf.mk (some 0) [], Mf.mk none [(1, Mf.mk (some 0) [])]],
     [Mf.mk (some 0) [], Mf.mk none [(1, Mf.mk (some 0) [])]]⟩
    (by simp) (by decide) (Mf.mk (some 0) [])

/-- Claim C4: when the fold at the root produces no manifest id, derive
constructs the node with no linknode and empty subentries, persists it
(submits it to the write channel) and returns its id; with zero parents and
no deletions this empty root is the result. -/
theorem claim_C4_empty_root (cs : CsId) (ps : List Mf) (ch : PathTree)
    (pe : Option PathElem) (st1 : DState)
    (h : deriveNodeF cs (deriveFuel ch (dedupList ps)) ⟨none, ch, dedupList ps⟩ ⟨[], []⟩ =
      .ok ((pe, none), st1)) :
    derive cs ps ch =
      .ok (Mf.mk none [],
        ⟨st1.created ++ [Mf.mk none []], st1.sent ++ [Mf.mk none []]⟩) ∧
    Mf.mk none [] ∈ st1.sent ++ [Mf.mk none []] := by
  have hinv : DStateInv st1 :=
    (deriveF_inv cs _).1 _ _ _ _ h ⟨List.nodup_nil, by simp, by simp⟩
  have hnot : Mf.mk none [] ∉ st1.created := by
    intro hmem
    rcases hinv.2.2 _ hmem with h1 | h1
    · exact h1 rfl
    · exact h1 rfl
  constructor
  · unfold derive
    rw [h]
    show Except.ok ((save_manifest (copy_and_update_subentries none none []) st1).1,
        (save_manifest (copy_and_update_subentries none none []) st1).2) =
      Except.ok (Mf.mk none [],
        ⟨st1.created ++ [Mf.mk none []], st1.sent ++ [Mf.mk none []]⟩)
    have hc : copy_and_update_subentries none none [] = Mf.mk none [] := rfl
    rw [hc, save_manifest_not_created hnot]
  · exact List.mem_append.mpr (Or.inr (List.mem_singleton.mpr rfl))

theorem claim_C4_witness :
    derive 0 [] emptyPathTree =
      .ok (Mf.mk none [],
        ⟨(⟨[], []⟩ : DState).created ++ [Mf.mk none []],
         (⟨[], []⟩ : DState).sent ++ [Mf.mk none []]⟩) ∧
    Mf.mk none [] ∈ (⟨[], []⟩ : DState).sent ++ [Mf.mk none []] :=
  claim_C4_empty_root 0 [] emptyPathTree none ⟨[], []⟩ (by decide)

/-- Claim C7: derive is a pure function of its input (equal inputs give the
identical result), and replaying the writes of a run against any
content-addressed store already holding them adds nothing new. -/
theorem claim_C7_idempotence (cs : CsId) (ps : List Mf) (ch : PathTree) (mf : Mf)
    (st : DState) (h : derive cs ps ch = .ok (mf, st)) :
    (∀ cs2 ps2 ch2, cs2 = cs → ps2 = ps → ch2 = ch →
      derive cs2 ps2 ch2 = .ok (mf, st)) ∧
    ∀ store, applyWrites (applyWrites store st.sent) st.sent = applyWrites store st.sent := by
  constructor
  · intro cs2 ps2 ch2 h1 h2 h3
    subst h1; subst h2; subst h3
    exact h
  · intro store
    exact applyWrites_idem store st.sent

theorem claim_C7_witness :
    derive 3 [] emptyPathTree =
      .ok (Mf.mk none [], ⟨[Mf.mk none []], [Mf.mk none []]⟩) ∧
    applyWrites (applyWrites [] [Mf.mk none []]) [Mf.mk none []] =
      applyWrites [] [Mf.mk none []] := by
  have h : derive 3 [] emptyPathTree =
      .ok (Mf.mk none [], ⟨[Mf.mk none []], [Mf.mk none []]⟩) := by decide
  exact ⟨h, (claim_C7_idempotence 3 [] emptyPathTree _ _ h).2 []⟩

/-- Claim C9: within one derivation every blob-store key is submitted to the
write channel at most once (the sent sequence has no duplicate), and a fold
producing a key already in the created set returns the id without enqueuing
anything. -/
theorem claim_C9_write_once (cs : CsId) (ps : List Mf) (ch : PathTree) (mf : Mf)
    (st : DState) (h : derive cs ps ch = .ok (mf, st)) :
    st.sent.Nodup ∧ ∀ m stx, m ∈ stx.created → save_manifest m stx = (m, stx) := by
  refine ⟨derive_nodup h, ?_⟩
  intro m stx hm
  unfold save_manifest
  rw [if_pos hm]

theorem claim_C9_witness :
    derive 1 [] (PathTree.mk none [(1, PathTree.mk (some PathChange.Remove) [])]) =
      .ok (Mf.mk none [(1, Mf.mk (some 1) [])],
        ⟨[Mf.mk (some 1) [], Mf.mk none [(1, Mf.mk (some 1) [])]],
         [Mf.mk (some 1) [], Mf.mk none [(1, Mf.mk (some 1) [])]]⟩) ∧
    List.Nodup [Mf.mk (some 1) [], Mf.mk none [(1, Mf.mk (some 1) [])]] := by
  have h : derive 1 [] (PathTree.mk none [(1, PathTree.mk (some PathChange.Remove) [])]) =
      .ok (Mf.mk none [(1, Mf.mk (some 1) [])],
        ⟨[Mf.mk (some 1) [], Mf.mk none [(1, Mf.mk (some 1) [])]],
         [Mf.mk (some 1) [], Mf.mk none [(1, Mf.mk (some 1) [])]]⟩) := by decide
  exact ⟨h, (claim_C9_write_once 1 [] _ _ _ h).1⟩

/-- Claim C8: in the flattened per-parent diffs, a path carrying both Add
and Remove tags is recorded as FileDirConflict, a path whose occurrences all
carry one tag keeps that tag, and content modifications contribute no entry
at all. -/
theorem claim_C8_flatten_conflicts (pds : List (List UnodeDiff)) (p : Nat) :
    (PathChange.Add ∈ occsOf p ((pds.flatten).filterMap toPathChange) →
      PathChange.Remove ∈ occsOf p ((pds.flatten).filterMap toPathChange) →
      lookupA p (diff_against_parents pds) = some .FileDirConflict) ∧
    (∀ t, occsOf p ((pds.flatten).filterMap toPathChange) ≠ [] →
      (∀ c ∈ occsOf p ((pds.flatten).filterMap toPathChange), c = t) →
      lookupA p (diff_against_parents pds) = some t) ∧
    (occsOf p ((pds.flatten).filterMap toPathChange) = [] →
      lookupA p (diff_against_parents pds) = none) := by
  have hbase : lookupA p (diff_against_parents pds) =
      (occsOf p ((pds.flatten).filterMap toPathChange)).foldl occState none := by
    unfold diff_against_parents
    rw [foldl_addChangeEntry]
    rfl
  refine ⟨?_, ?_, ?_⟩
  · intro hA hR
    rw [hbase]
    cases hL : occsOf p ((pds.flatten).filterMap toPathChange) with
    | nil => rw [hL] at hA; simp at hA
    | cons c0 rest =>
      rw [List.foldl_cons]
      have h0 : occState none c0 = some c0 := rfl
      rw [h0]
      apply foldl_occState_mixed
      have hc0 : c0 ∈ occsOf p ((pds.flatten).filterMap toPathChange) := by
        rw [hL]; exact List.mem_cons_self _ _
      rcases occsOf_no_fdc p pds c0 hc0 with h1 | h1
      · rw [hL] at hR
        rcases List.mem_cons.mp hR with h2 | h2
        · rw [h1] at h2; cases h2
        · exact ⟨.Remove, h2, by rw [h1]; intro h3; cases h3⟩
      · rw [hL] at hA
        rcases List.mem_cons.mp hA with h2 | h2
        · rw [h1] at h2; cases h2
        · exact ⟨.Add, h2, by rw [h1]; intro h3; cases h3⟩
  · intro t hne hall
    rw [hbase]
    cases hL : occsOf p ((pds.flatten).filterMap toPathChange) with
    | nil => exact absurd hL hne
    | cons c0 rest =>
      rw [List.foldl_cons]
      have h0 : c0 = t := by
        apply hall
        rw [hL]; exact List.mem_cons_self _ _
      subst h0
      have h1 : occState none c0 = some c0 := rfl
      rw [h1]
      apply foldl_occState_same
      intro c hc
      apply hall
      rw [hL]
      exact List.mem_cons_of_mem _ hc
  · intro hL
    rw [hbase, hL]
    rfl

theorem claim_C8_witness :
    lookupA 1 (diff_against_parents
      [[.Added (some 1) 0, .Removed (some 1) 0], [.Added (some 2) 0, .Changed (some 3) 0 0]]) =
      some .FileDirConflict ∧
    lookupA 2 (diff_against_parents
      [[.Added (some 1) 0, .Removed (some 1) 0], [.Added (some 2) 0, .Changed (some 3) 0 0]]) =
      some .Add ∧
    lookupA 3 (diff_against_parents
      [[.Added (some 1) 0, .Removed (some 1) 0], [.Added (some 2) 0, .Changed (some 3) 0 0]]) =
      none :=
  ⟨(claim_C8_flatten_conflicts
      [[.Added (some 1) 0, .Removed (some 1) 0], [.Added (some 2) 0, .Changed (some 3) 0 0]]
      1).1 (by decide) (by decide),
   (claim_C8_flatten_conflicts
      [[.Added (some 1) 0, .Removed (some 1) 0], [.Added (some 2) 0, .Changed (some 3) 0 0]]
      2).2.1 .Add (by decide) (by decide),
   (claim_C8_flatten_conflicts
      [[.Added (some 1) 0, .Removed (some 1) 0], [.Added (some 2) 0, .Changed (some 3) 0 0]]
      3).2.2 (by decide)⟩
